import Mathlib

/-! Shallow embedding of the card-list utilities of the Taiwan-Credit-Card-Helper
single-page application: the record model (`types.ts`), the `deduplicateCards`
routine (`App.tsx`, lines 16-40), the id-based merge used by the background
discovery loop, and the loop itself (`App.tsx`, `runDiscovery`, lines 454-509).
JavaScript strings are modelled as Lean `String`; `toLowerCase` is modelled by
`Char.toLower` (ASCII case mapping; the characters the key filter keeps,
`[a-z0-9]` and the CJK range `一`-`龥`, are unaffected by the
difference); optional boolean fields are `Option Bool` read through JavaScript
truthiness (`undefined` is falsy). -/

/-- `CardCategory` from `types.ts`. -/
inductive CardCategory where
  | ALL
  | CONVENIENCE
  | ONLINE
  | TRAVEL_JP_KR
  | GAS
  | GENERAL
  | MOBILE_PAY
deriving DecidableEq

/-- `CardReward` from `types.ts`. -/
structure CardReward where
  type : String
  value : String
  cap : Option String
  condition : Option String
  description : String
deriving DecidableEq

/-- `AnnualFee` from `types.ts`. -/
structure AnnualFee where
  fee : String
  waiveCondition : String
deriving DecidableEq

/-- `CreditCard` from `types.ts`; the `Partial Record` of rewards is an
association list, optional fields are `Option`. -/
structure CreditCard where
  id : String
  name : String
  bank : String
  imageUrl : Option String
  link : Option String
  rewards : List (CardCategory × CardReward)
  annualFee : AnnualFee
  tags : List String
  pros : Option (List String)
  cons : Option (List String)
  lastUpdated : String
  isLive : Option Bool
  verified : Option Bool
deriving DecidableEq

/-- JavaScript truthiness of an optional boolean: `undefined` is falsy. -/
def truthy : Option Bool → Bool
  | some b => b
  | none => false

/-- The character class kept by the regex `[^a-z0-9一-龥]`
replacement in `App.tsx` line 21: lowercase ASCII letters, digits, and the
CJK ideograph range U+4E00 to U+9FA5. -/
def isKeyChar (c : Char) : Bool :=
  ('a' ≤ c && c ≤ 'z') || ('0' ≤ c && c ≤ '9') ||
    (0x4e00 ≤ c.toNat && c.toNat ≤ 0x9fa5)

/-- The canonical key computed in `App.tsx` line 21:
`(card.bank + card.name).toLowerCase().replace(/[^a-z0-9一-龥]/g, '')`;
lowercasing applied characterwise to the underlying character list. -/
def normKey (card : CreditCard) : String :=
  String.mk (((card.bank ++ card.name).data.map Char.toLower).filter isKeyChar)

/-- The JavaScript `Map<string, CreditCard>` of `deduplicateCards`, as an
insertion-ordered association list: `set` on a present key updates the entry
in place, on an absent key appends. -/
abbrev DedupMap := List (String × CreditCard)

/-- `map.get(key)`. -/
def mapGet : DedupMap → String → Option CreditCard
  | [], _ => none
  | (k0, v0) :: rest, k => if k0 = k then some v0 else mapGet rest k

/-- `map.set(key, v)`: update in place when the key is present (JavaScript
`Map.set` keeps the original insertion position), append otherwise. -/
def mapSet : DedupMap → String → CreditCard → DedupMap
  | [], k, v => [(k, v)]
  | (k0, v0) :: rest, k, v =>
    if k0 = k then (k, v) :: rest else (k0, v0) :: mapSet rest k v

/-- The body of the `cards.forEach` callback of `deduplicateCards`
(`App.tsx` lines 19-37). -/
def dedupStep (m : DedupMap) (card : CreditCard) : DedupMap :=
  let key := normKey card
  match mapGet m key with
  | some existing =>
    if truthy card.isLive && !truthy existing.isLive then
      mapSet m key card
    else if truthy card.isLive && truthy existing.isLive then
      mapSet m key card
    else
      m
  | none => mapSet m key card

/-- `deduplicateCards` (`App.tsx` lines 16-40): fold the step over the input,
return `Array.from(map.values())`. -/
def deduplicateCards (cards : List CreditCard) : List CreditCard :=
  (cards.foldl dedupStep []).map Prod.snd

/-- The `merged.filter` pass with the `seen` set inside `runDiscovery`
(`App.tsx` lines 489-494): drop an element whose id was already seen, adding
every id to the set as it goes. -/
def filterSeen : List String → List CreditCard → List CreditCard
  | _, [] => []
  | seen, c :: rest =>
    if c.id ∈ seen then filterSeen (c.id :: seen) rest
    else c :: filterSeen (c.id :: seen) rest

/-- The `setCards` updater of `runDiscovery` (`App.tsx` lines 485-495):
`merged = [...newCards, ...prev]` deduplicated by id via the `seen` set. -/
def mergeBatch (newCards prev : List CreditCard) : List CreditCard :=
  filterSeen [] (newCards ++ prev)

/-- The mutable state touched by the discovery loop: the `cards` React state
and the trace of queries for which a fetch was issued, in order. -/
structure DiscoveryState where
  cards : List CreditCard
  issued : List String
deriving DecidableEq

/-- The `for (const query of DISCOVERY_QUERIES)` loop of `runDiscovery`
(`App.tsx` lines 476-504). `closureCards` is the `cards` variable captured by
the effect closure: the effect runs once on mount (empty dependency array), so
the guard `if (cards.length >= 100) break` reads the mount-render list on
every iteration, not the current state. `fetch` abstracts
`fetchTrendingCards`; a batch is merged only when non-empty. -/
def discoveryLoop (closureCards : List CreditCard)
    (fetch : String → List CreditCard) :
    DiscoveryState → List String → DiscoveryState
  | st, [] => st
  | st, q :: rest =>
    if 100 ≤ closureCards.length then st
    else
      let newCards := fetch q
      let cards :=
        if 0 < newCards.length then mergeBatch newCards st.cards else st.cards
      discoveryLoop closureCards fetch ⟨cards, st.issued ++ [q]⟩ rest

/-- `runDiscovery` started from the mount-render state: the closure variable
and the initial `cards` state coincide. -/
def runDiscovery (initialCards : List CreditCard)
    (fetch : String → List CreditCard) (queries : List String) :
    DiscoveryState :=
  discoveryLoop initialCards fetch ⟨initialCards, []⟩ queries

/-- Modelled from the claim wording (refinement side for the deduplication
rules): the stored record for a key after one more record arrives. The first
record is stored; a later live record replaces a stored static one; among two
live records the later wins; a later static record never replaces. -/
def specWinner (stored : Option CreditCard) (card : CreditCard) :
    Option CreditCard :=
  match stored with
  | none => some card
  | some existing =>
    if truthy card.isLive && !truthy existing.isLive then some card
    else if truthy card.isLive && truthy existing.isLive then some card
    else some existing

/-- Modelled from the claim wording (refinement side for the merge rule):
remove duplicates by id, keeping the first occurrence. -/
def keepFirstById : List CreditCard → List CreditCard
  | [] => []
  | c :: rest => c :: keepFirstById (rest.filter (fun d => decide (¬ d.id = c.id)))
termination_by l => l.length
decreasing_by
  simp only [List.length_cons]
  exact Nat.lt_succ_of_le (List.length_filter_le _ _)

/-- A record with every field empty, used to build concrete instances. -/
def baseCard : CreditCard :=
  { id := "", name := "", bank := "", imageUrl := none, link := none,
    rewards := [], annualFee := { fee := "", waiveCondition := "" },
    tags := [], pros := none, cons := none, lastUpdated := "",
    isLive := none, verified := none }

/-- The static record of the spec example: bank Foo, name J Card, not live. -/
def fooJStatic : CreditCard :=
  { baseCard with bank := "Foo", name := "J Card", isLive := some false }

/-- The live record of the spec example: bank Foo, name J Card, live. -/
def fooJLive : CreditCard :=
  { baseCard with bank := "Foo", name := "J Card", isLive := some true }

/-- The keys of the association-list map, in insertion order. -/
def mapKeys (m : DedupMap) : List String := m.map Prod.fst

theorem mapGet_mapSet (m : DedupMap) (k : String) (v : CreditCard)
    (k' : String) :
    mapGet (mapSet m k v) k' = if k = k' then some v else mapGet m k' := by
  induction m with
  | nil =>
    by_cases h : k = k' <;> simp [mapSet, mapGet, h]
  | cons p rest ih =>
    obtain ⟨k0, v0⟩ := p
    by_cases h0 : k0 = k
    · subst h0
      by_cases h1 : k0 = k' <;> simp [mapSet, mapGet, h1]
    · by_cases h1 : k0 = k'
      · subst h1
        have h2 : ¬ k = k0 := fun h => h0 h.symm
        simp [mapSet, mapGet, h0, h2]
      · simp [mapSet, mapGet, h0, h1, ih]

theorem mapKeys_mapSet_of_mem (m : DedupMap) (k : String) (v : CreditCard)
    (h : k ∈ mapKeys m) : mapKeys (mapSet m k v) = mapKeys m := by
  induction m with
  | nil => simp [mapKeys] at h
  | cons p rest ih =>
    obtain ⟨k0, v0⟩ := p
    by_cases h0 : k0 = k
    · subst h0
      simp [mapSet, mapKeys]
    · simp [mapKeys, h0] at h
      rcases h with h | h
      · exact absurd h.symm h0
      · simpa [mapSet, mapKeys, h0] using ih (by simpa [mapKeys] using h)

theorem mapSet_of_not_mem (m : DedupMap) (k : String) (v : CreditCard)
    (h : ¬ k ∈ mapKeys m) : mapSet m k v = m ++ [(k, v)] := by
  induction m with
  | nil => simp [mapSet]
  | cons p rest ih =>
    obtain ⟨k0, v0⟩ := p
    simp [mapKeys] at h
    push_neg at h
    have h0 : ¬ k0 = k := fun h2 => h.1 h2.symm
    simp [mapSet, h0]
    exact ih (by simpa [mapKeys] using h.2)

theorem mapGet_eq_none_iff (m : DedupMap) (k : String) :
    mapGet m k = none ↔ ¬ k ∈ mapKeys m := by
  induction m with
  | nil => simp [mapGet, mapKeys]
  | cons p rest ih =>
    obtain ⟨k0, v0⟩ := p
    by_cases h0 : k0 = k
    · subst h0
      simp [mapGet, mapKeys]
    · have h0' : ¬ k = k0 := fun h2 => h0 h2.symm
      simp [mapGet, mapKeys, h0, h0', ih]

theorem mem_values_of_mapGet (m : DedupMap) (k : String) (v : CreditCard)
    (h : mapGet m k = some v) : v ∈ m.map Prod.snd := by
  induction m with
  | nil => simp [mapGet] at h
  | cons p rest ih =>
    obtain ⟨k0, v0⟩ := p
    by_cases h0 : k0 = k
    · subst h0
      simp [mapGet] at h
      simp [h]
    · simp [mapGet, h0] at h
      simp [ih h]

theorem mem_values_mapSet (m : DedupMap) (k : String) (v x : CreditCard)
    (h : x ∈ (mapSet m k v).map Prod.snd) :
    x ∈ m.map Prod.snd ∨ x = v := by
  induction m with
  | nil =>
    simp [mapSet] at h
    exact Or.inr h
  | cons p rest ih =>
    obtain ⟨k0, v0⟩ := p
    by_cases h0 : k0 = k
    · subst h0
      simp [mapSet] at h
      rcases h with h | h
      · exact Or.inr h
      · exact Or.inl (by simp [h])
    · simp [mapSet, h0] at h
      rcases h with h | h
      · exact Or.inl (by simp [h])
      · rcases ih (by simpa using h) with h2 | h2
        · exact Or.inl (by simp at h2; simp [h2])
        · exact Or.inr h2

theorem mapKeys_mapSet_sub (m : DedupMap) (k : String) (v : CreditCard)
    (k' : String) (h : k' ∈ mapKeys (mapSet m k v)) :
    k' ∈ mapKeys m ∨ k' = k := by
  by_cases hm : k ∈ mapKeys m
  · rw [mapKeys_mapSet_of_mem m k v hm] at h
    exact Or.inl h
  · rw [mapSet_of_not_mem m k v hm] at h
    simp [mapKeys] at h
    rcases h with h | h
    · exact Or.inl (by simpa [mapKeys] using h)
    · exact Or.inr h


theorem mapGet_dedupStep (m : DedupMap) (c : CreditCard) (k : String) :
    mapGet (dedupStep m c) k =
      if normKey c = k then specWinner (mapGet m k) c else mapGet m k := by
  unfold dedupStep specWinner
  by_cases hk : normKey c = k
  · subst hk
    cases hm : mapGet m (normKey c) with
    | none => simp [hm, mapGet_mapSet]
    | some existing =>
      by_cases h1 : truthy c.isLive && !truthy existing.isLive
      · simp [hm, h1, mapGet_mapSet]
      · by_cases h2 : truthy c.isLive && truthy existing.isLive
        · simp [hm, h1, h2, mapGet_mapSet]
        · simp [hm, h1, h2]
  · cases hm : mapGet m (normKey c) with
    | none => simp [hm, mapGet_mapSet, hk]
    | some existing =>
      by_cases h1 : truthy c.isLive && !truthy existing.isLive
      · simp [hm, h1, mapGet_mapSet, hk]
      · by_cases h2 : truthy c.isLive && truthy existing.isLive
        · simp [hm, h1, h2, mapGet_mapSet, hk]
        · simp [hm, h1, h2, hk]

theorem mapGet_foldl_dedupStep (l : List CreditCard) :
    ∀ (m : DedupMap) (k : String),
      mapGet (l.foldl dedupStep m) k =
        (l.filter (fun c => decide (normKey c = k))).foldl specWinner
          (mapGet m k) := by
  induction l with
  | nil => intro m k; simp
  | cons c l ih =>
    intro m k
    by_cases hk : normKey c = k
    · have hd : decide (normKey c = k) = true := by simp [hk]
      rw [List.foldl_cons, ih, mapGet_dedupStep, if_pos hk, List.filter_cons,
        hd, if_pos rfl, List.foldl_cons]
    · have hd : decide (normKey c = k) = false := by simp [hk]
      rw [List.foldl_cons, ih, mapGet_dedupStep, if_neg hk, List.filter_cons,
        hd, if_neg (by simp)]

theorem dedupStep_eq_or (m : DedupMap) (c : CreditCard) :
    dedupStep m c = m ∨ dedupStep m c = mapSet m (normKey c) c := by
  dsimp only [dedupStep]
  split
  · split
    · right; rfl
    · split
      · right; rfl
      · left; rfl
  · right; rfl

theorem mem_values_dedupStep (m : DedupMap) (c x : CreditCard)
    (h : x ∈ (dedupStep m c).map Prod.snd) :
    x ∈ m.map Prod.snd ∨ x = c := by
  rcases dedupStep_eq_or m c with he | he
  · rw [he] at h
    exact Or.inl h
  · rw [he] at h
    exact mem_values_mapSet _ _ _ _ h

theorem mem_values_foldl_dedupStep (l : List CreditCard) :
    ∀ (m : DedupMap) (v : CreditCard),
      v ∈ ((l.foldl dedupStep m).map Prod.snd) →
      v ∈ m.map Prod.snd ∨ v ∈ l := by
  induction l with
  | nil => intro m v h; simp at h ⊢; exact h
  | cons c l ih =>
    intro m v h
    simp only [List.foldl_cons] at h
    rcases ih (dedupStep m c) v h with h2 | h2
    · rcases mem_values_dedupStep m c v h2 with h3 | h3
      · exact Or.inl h3
      · exact Or.inr (by simp [h3])
    · exact Or.inr (by simp [h2])

theorem mapKeys_dedupStep_sub (m : DedupMap) (c : CreditCard) (k : String)
    (h : k ∈ mapKeys (dedupStep m c)) :
    k ∈ mapKeys m ∨ k = normKey c := by
  rcases dedupStep_eq_or m c with he | he
  · rw [he] at h
    exact Or.inl h
  · rw [he] at h
    exact mapKeys_mapSet_sub _ _ _ _ h

theorem mapKeys_foldl_dedupStep_sub (l : List CreditCard) :
    ∀ (m : DedupMap) (k : String),
      k ∈ mapKeys (l.foldl dedupStep m) →
      k ∈ mapKeys m ∨ k ∈ l.map normKey := by
  induction l with
  | nil => intro m k h; simp at h ⊢; exact h
  | cons c l ih =>
    intro m k h
    simp only [List.foldl_cons] at h
    rcases ih (dedupStep m c) k h with h2 | h2
    · rcases mapKeys_dedupStep_sub m c k h2 with h3 | h3
      · exact Or.inl h3
      · exact Or.inr (by simp [h3])
    · exact Or.inr (by simp at h2 ⊢; exact Or.inr h2)

/-- Every entry of the map is stored under the canonical key of its record. -/
def coherentMap (m : DedupMap) : Prop := ∀ p ∈ m, normKey p.2 = p.1

theorem coherent_mapSet (m : DedupMap) (k : String) (v : CreditCard)
    (hm : coherentMap m) (hv : normKey v = k) : coherentMap (mapSet m k v) := by
  induction m with
  | nil =>
    intro p hp
    simp [mapSet] at hp
    simp [hp, hv]
  | cons q rest ih =>
    obtain ⟨k0, v0⟩ := q
    have hrest : coherentMap rest := fun p hp => hm p (by simp [hp])
    by_cases h0 : k0 = k
    · subst h0
      intro p hp
      simp [mapSet] at hp
      rcases hp with hp | hp
      · simp [hp, hv]
      · exact hm p (by simp [hp])
    · intro p hp
      simp [mapSet, h0] at hp
      rcases hp with hp | hp
      · exact hm p (by simp [hp])
      · exact ih hrest p hp

theorem coherent_dedupStep (m : DedupMap) (c : CreditCard)
    (hm : coherentMap m) : coherentMap (dedupStep m c) := by
  rcases dedupStep_eq_or m c with he | he
  · rw [he]; exact hm
  · rw [he]; exact coherent_mapSet m (normKey c) c hm rfl

theorem coherent_foldl_dedupStep (l : List CreditCard) :
    ∀ (m : DedupMap), coherentMap m → coherentMap (l.foldl dedupStep m) := by
  induction l with
  | nil => intro m hm; simpa using hm
  | cons c l ih =>
    intro m hm
    simpa using ih (dedupStep m c) (coherent_dedupStep m c hm)

theorem values_map_normKey (m : DedupMap) (hm : coherentMap m) :
    (m.map Prod.snd).map normKey = mapKeys m := by
  induction m with
  | nil => simp [mapKeys]
  | cons p rest ih =>
    have hp : normKey p.2 = p.1 := hm p (by simp)
    have hrest : coherentMap rest := fun q hq => hm q (by simp [hq])
    simp [mapKeys, hp, ih hrest]

theorem nodup_mapKeys_mapSet (m : DedupMap) (k : String) (v : CreditCard)
    (h : (mapKeys m).Nodup) : (mapKeys (mapSet m k v)).Nodup := by
  by_cases hk : k ∈ mapKeys m
  · rw [mapKeys_mapSet_of_mem m k v hk]; exact h
  · rw [mapSet_of_not_mem m k v hk]
    simp only [mapKeys, List.map_append, List.map_cons, List.map_nil]
    rw [List.nodup_append]
    refine ⟨h, List.nodup_singleton _, ?_⟩
    intro a ha hb
    simp at hb
    exact hk (hb ▸ ha)

theorem nodup_mapKeys_dedupStep (m : DedupMap) (c : CreditCard)
    (h : (mapKeys m).Nodup) : (mapKeys (dedupStep m c)).Nodup := by
  rcases dedupStep_eq_or m c with he | he
  · rw [he]; exact h
  · rw [he]; exact nodup_mapKeys_mapSet m (normKey c) c h

theorem nodup_mapKeys_foldl_dedupStep (l : List CreditCard) :
    ∀ (m : DedupMap), (mapKeys m).Nodup →
      (mapKeys (l.foldl dedupStep m)).Nodup := by
  induction l with
  | nil => intro m hm; simpa using hm
  | cons c l ih =>
    intro m hm
    simpa using ih (dedupStep m c) (nodup_mapKeys_dedupStep m c hm)

theorem specWinner_live (st : Option CreditCard) (c : CreditCard)
    (h : truthy c.isLive = true) : specWinner st c = some c := by
  cases st with
  | none => rfl
  | some e => cases he : truthy e.isLive <;> simp [specWinner, h, he]

theorem specWinner_static_keep (v c : CreditCard)
    (hc : truthy c.isLive = false) : specWinner (some v) c = some v := by
  simp [specWinner, hc]

theorem specWinner_self (c : CreditCard) : specWinner (some c) c = some c := by
  cases hb : truthy c.isLive <;> simp [specWinner, hb]

theorem foldl_specWinner_keep_const (c : CreditCard) :
    ∀ (xs : List CreditCard), (∀ x ∈ xs, x = c) →
      xs.foldl specWinner (some c) = some c := by
  intro xs
  induction xs with
  | nil => intro _; rfl
  | cons x rest ih =>
    intro hall
    have hx : x = c := hall x (by simp)
    subst hx
    rw [List.foldl_cons, specWinner_self]
    exact ih (fun y hy => hall y (by simp [hy]))

theorem foldl_specWinner_const (c : CreditCard) (xs : List CreditCard)
    (hne : xs ≠ []) (hall : ∀ x ∈ xs, x = c) :
    xs.foldl specWinner none = some c := by
  cases xs with
  | nil => exact absurd rfl hne
  | cons x rest =>
    have hx : x = c := hall x (by simp)
    subst hx
    rw [List.foldl_cons]
    show rest.foldl specWinner (some x) = some x
    exact foldl_specWinner_keep_const x rest (fun y hy => hall y (by simp [hy]))

theorem foldl_specWinner_live (xs : List CreditCard) :
    ∀ (st : Option CreditCard),
      ((∃ w, st = some w ∧ truthy w.isLive = true) ∨
        ∃ c ∈ xs, truthy c.isLive = true) →
      ∃ w, xs.foldl specWinner st = some w ∧ truthy w.isLive = true := by
  induction xs with
  | nil =>
    intro st h
    rcases h with ⟨w, hw, hl⟩ | ⟨c, hc, _⟩
    · exact ⟨w, by simp [hw], hl⟩
    · simp at hc
  | cons c rest ih =>
    intro st h
    rw [List.foldl_cons]
    cases hc : truthy c.isLive with
    | true =>
      refine ih (specWinner st c) (Or.inl ⟨c, ?_, hc⟩)
      rw [specWinner_live st c hc]
    | false =>
      rcases h with ⟨w, hw, hl⟩ | ⟨d, hd, hdl⟩
      · subst hw
        refine ih (specWinner (some w) c) (Or.inl ⟨w, ?_, hl⟩)
        rw [specWinner_static_keep w c hc]
      · simp at hd
        rcases hd with hd | hd
        · subst hd
          rw [hdl] at hc
          cases hc
        · exact ih (specWinner st c) (Or.inr ⟨d, hd, hdl⟩)

theorem foldl_specWinner_keep_static (v : CreditCard) :
    ∀ (xs : List CreditCard), (∀ c ∈ xs, truthy c.isLive = false) →
      xs.foldl specWinner (some v) = some v := by
  intro xs
  induction xs with
  | nil => intro _; rfl
  | cons c rest ih =>
    intro hall
    rw [List.foldl_cons, specWinner_static_keep v c (hall c (by simp))]
    exact ih (fun d hd => hall d (by simp [hd]))

theorem foldl_specWinner_all_static (xs : List CreditCard)
    (h : ∀ c ∈ xs, truthy c.isLive = false) :
    xs.foldl specWinner none = xs.head? := by
  cases xs with
  | nil => rfl
  | cons c rest =>
    rw [List.foldl_cons]
    show rest.foldl specWinner (some c) = some c
    exact foldl_specWinner_keep_static c rest (fun d hd => h d (by simp [hd]))

theorem mem_filterSeen (c : CreditCard) :
    ∀ (l : List CreditCard) (seen : List String),
      c ∈ filterSeen seen l ↔
        (¬ c.id ∈ seen ∧
          l.find? (fun d => decide (d.id = c.id)) = some c) := by
  intro l
  induction l with
  | nil =>
    intro seen
    simp [filterSeen]
  | cons d rest ih =>
    intro seen
    have hfind : (d :: rest).find? (fun e => decide (e.id = c.id)) =
        if d.id = c.id then some d
        else rest.find? (fun e => decide (e.id = c.id)) := by
      by_cases hid : d.id = c.id <;> simp [List.find?, hid]
    by_cases hd : d.id ∈ seen
    · simp only [filterSeen, if_pos hd]
      rw [ih, hfind]
      by_cases hid : d.id = c.id
      · rw [if_pos hid]
        apply iff_of_false
        · rintro ⟨h1, _⟩
          exact h1 (by simp [← hid])
        · rintro ⟨h1, _⟩
          exact h1 (hid ▸ hd)
      · rw [if_neg hid]
        constructor
        · rintro ⟨h1, h2⟩
          exact ⟨fun h => h1 (by simp [h]), h2⟩
        · rintro ⟨h1, h2⟩
          refine ⟨fun h => ?_, h2⟩
          simp at h
          rcases h with h | h
          · exact hid h.symm
          · exact h1 h
    · simp only [filterSeen, if_neg hd, List.mem_cons]
      rw [ih, hfind]
      by_cases hid : d.id = c.id
      · rw [if_pos hid]
        constructor
        · rintro (h | ⟨h1, _⟩)
          · subst h
            exact ⟨fun hh => hd (hid ▸ hh), rfl⟩
          · exact absurd (by simp [← hid]) h1
        · rintro ⟨h1, h2⟩
          simp at h2
          exact Or.inl h2.symm
      · rw [if_neg hid]
        constructor
        · rintro (h | ⟨h1, h2⟩)
          · exact absurd (congrArg CreditCard.id h).symm hid
          · exact ⟨fun h => h1 (by simp [h]), h2⟩
        · rintro ⟨h1, h2⟩
          right
          refine ⟨fun h => ?_, h2⟩
          simp at h
          rcases h with h | h
          · exact hid h.symm
          · exact h1 h

theorem mem_mergeBatch (c : CreditCard) (news prev : List CreditCard) :
    c ∈ mergeBatch news prev ↔
      (news ++ prev).find? (fun d => decide (d.id = c.id)) = some c := by
  unfold mergeBatch
  rw [mem_filterSeen]
  simp

theorem find?_id_of_nodup (l : List CreditCard) (c : CreditCard)
    (hn : (l.map CreditCard.id).Nodup) (hc : c ∈ l) :
    l.find? (fun d => decide (d.id = c.id)) = some c := by
  induction l with
  | nil => simp at hc
  | cons d rest ih =>
    simp only [List.map_cons, List.nodup_cons] at hn
    rcases List.mem_cons.mp hc with h | h
    · subst h
      simp [List.find?]
    · by_cases hid : d.id = c.id
      · exfalso
        exact hn.1 (hid ▸ List.mem_map_of_mem CreditCard.id h)
      · simp only [List.find?, hid, decide_eq_true_eq, if_neg]
        have : decide (d.id = c.id) = false := by simp [hid]
        simp [this]
        exact ih hn.2 h

theorem keepFirstById_nil : keepFirstById [] = [] := by
  rw [keepFirstById]

theorem keepFirstById_cons (c : CreditCard) (rest : List CreditCard) :
    keepFirstById (c :: rest) =
      c :: keepFirstById (rest.filter (fun d => decide (¬ d.id = c.id))) := by
  rw [keepFirstById]

theorem filterSeen_eq_keepFirstById :
    ∀ (l : List CreditCard) (seen : List String),
      filterSeen seen l =
        keepFirstById (l.filter (fun d => decide (¬ d.id ∈ seen))) := by
  intro l
  induction l with
  | nil => intro seen; simp [filterSeen, keepFirstById_nil]
  | cons d rest ih =>
    intro seen
    by_cases hd : d.id ∈ seen
    · simp only [filterSeen, if_pos hd]
      rw [List.filter_cons, if_neg (by simp [hd])]
      rw [ih]
      congr 1
      apply List.filter_congr
      intro x _
      by_cases h1 : x.id = d.id <;> by_cases h2 : x.id ∈ seen <;>
        simp [h1, h2, hd]
    · simp only [filterSeen, if_neg hd]
      rw [List.filter_cons, if_pos (by simp [hd])]
      rw [keepFirstById_cons, ih]
      congr 1
      rw [List.filter_filter]
      congr 1
      apply List.filter_congr
      intro x _
      by_cases h1 : x.id = d.id <;> by_cases h2 : x.id ∈ seen <;>
        simp [h1, h2]

theorem mergeBatch_eq_keepFirstById (news prev : List CreditCard) :
    mergeBatch news prev = keepFirstById (news ++ prev) := by
  unfold mergeBatch
  rw [filterSeen_eq_keepFirstById]
  congr 1
  simp

theorem dedupStep_of_not_mem (m : DedupMap) (c : CreditCard)
    (h : ¬ normKey c ∈ mapKeys m) :
    dedupStep m c = m ++ [(normKey c, c)] := by
  have hget : mapGet m (normKey c) = none :=
    (mapGet_eq_none_iff m (normKey c)).mpr h
  dsimp only [dedupStep]
  rw [hget]
  exact mapSet_of_not_mem m (normKey c) c h

theorem foldl_dedupStep_fresh :
    ∀ (l : List CreditCard) (m : DedupMap),
      (l.map normKey).Nodup →
      (∀ k ∈ l.map normKey, ¬ k ∈ mapKeys m) →
      l.foldl dedupStep m = m ++ l.map (fun c => (normKey c, c)) := by
  intro l
  induction l with
  | nil => intro m _ _; simp
  | cons c rest ih =>
    intro m hnd hdisj
    simp only [List.map_cons, List.nodup_cons] at hnd
    have hc : ¬ normKey c ∈ mapKeys m := hdisj (normKey c) (by simp)
    rw [List.foldl_cons, dedupStep_of_not_mem m c hc,
      ih (m ++ [(normKey c, c)]) hnd.2 ?_]
    · simp
    · intro k hk
      have h1 : ¬ k ∈ mapKeys m := hdisj k (by simp [hk])
      have h2 : ¬ k = normKey c := fun he => hnd.1 (he ▸ hk)
      simp only [mapKeys, List.map_append, List.map_cons, List.map_nil,
        List.mem_append, List.mem_cons, List.not_mem_nil, or_false]
      rintro (hk2 | hk2)
      · exact h1 (by simpa [mapKeys] using hk2)
      · exact h2 hk2

theorem dedup_of_nodup_keys (l : List CreditCard)
    (h : (l.map normKey).Nodup) : deduplicateCards l = l := by
  unfold deduplicateCards
  rw [foldl_dedupStep_fresh l [] h (by simp [mapKeys])]
  simp only [List.nil_append, List.map_map]
  exact List.map_id'' (fun c => rfl) l

theorem coherent_nil : coherentMap [] := by
  intro p hp
  simp at hp

theorem output_keys_nodup (l : List CreditCard) :
    ((deduplicateCards l).map normKey).Nodup := by
  unfold deduplicateCards
  rw [values_map_normKey _ (coherent_foldl_dedupStep l [] coherent_nil)]
  exact nodup_mapKeys_foldl_dedupStep l [] (by simp [mapKeys])

/-- Record whose bank differs from `plainCard` only by punctuation. -/
def punctCard : CreditCard := { baseCard with bank := "Foo-Bar" }

/-- Record whose bank is the punctuation-free spelling of `punctCard`. -/
def plainCard : CreditCard := { baseCard with bank := "FooBar" }

/-- Live record with id a sharing its canonical key with `liveB`. -/
def liveA : CreditCard :=
  { baseCard with id := "a", bank := "Foo", name := "Card", isLive := some true }

/-- Live record with id b sharing its canonical key with `liveA`. -/
def liveB : CreditCard :=
  { baseCard with id := "b", bank := "Foo", name := "Card", isLive := some true }

/-- Record whose identity string holds no alphanumeric or CJK character. -/
def malformedCard : CreditCard :=
  { baseCard with bank := "?!@", name := "#$ %" }

/-- Static record (isLive absent) sharing its canonical key with `staticB`. -/
def staticA : CreditCard :=
  { baseCard with id := "s1", bank := "Foo", name := "Card" }

/-- Static record (isLive false) sharing its canonical key with `staticA`. -/
def staticB : CreditCard :=
  { baseCard with id := "s2", bank := "Foo", name := "Card", isLive := some false }

/-- Distinct live cards used to fill a discovery batch. -/
def mkCard (n : Nat) : CreditCard :=
  { baseCard with id := toString n, isLive := some true }

/-- A fetched batch of one hundred cards with pairwise distinct ids. -/
def bigBatch : List CreditCard := (List.range 100).map mkCard

/-- Fetched record whose id collides with `storedP1`. -/
def fetchedN1 : CreditCard := { baseCard with id := "x", name := "new" }

/-- Stored record whose id collides with `fetchedN1`. -/
def storedP1 : CreditCard := { baseCard with id := "x", name := "old" }

/-- Stored record whose id occurs in no fetched batch below. -/
def storedP2 : CreditCard := { baseCard with id := "y", name := "kept" }

/-- C1: `deduplicateCards` scans the input once building a map from canonical
key to winning record, and for every key the stored record is exactly the fold
of the claimed replacement rules (`specWinner`) over the input records bearing
that key, in input order: first record stored, a later live record replaces a
stored static one, among two live records the later wins, a later static
record is discarded. -/
theorem dedup_refines_spec_rules (l : List CreditCard) :
    deduplicateCards l = (l.foldl dedupStep []).map Prod.snd ∧
    ∀ k : String,
      mapGet (l.foldl dedupStep []) k =
        (l.filter (fun c => decide (normKey c = k))).foldl specWinner none := by
  refine ⟨rfl, fun k => ?_⟩
  rw [mapGet_foldl_dedupStep l [] k]
  rfl

/-- C2: for every input list and key occurring in some live record of the
list, the map entry of `deduplicateCards` for that key is a live record and
belongs to the output, whatever the input order; and the spec instance
holds: `[fooJStatic, fooJLive]` dedups to exactly `[fooJLive]`. -/
theorem dedup_live_entry_wins (l : List CreditCard) (k : String)
    (h : ∃ c ∈ l, normKey c = k ∧ truthy c.isLive = true) :
    (∃ w, mapGet (l.foldl dedupStep []) k = some w ∧
      truthy w.isLive = true ∧ w ∈ deduplicateCards l) ∧
    deduplicateCards [fooJStatic, fooJLive] = [fooJLive] := by
  refine ⟨?_, rfl⟩
  rcases h with ⟨c, hcl, hk, hlive⟩
  have hmemf : c ∈ l.filter (fun d => decide (normKey d = k)) :=
    List.mem_filter.mpr ⟨hcl, by simp [hk]⟩
  rcases foldl_specWinner_live (l.filter (fun d => decide (normKey d = k)))
      none (Or.inr ⟨c, hmemf, hlive⟩) with ⟨w, hw, hwl⟩
  have hget : mapGet (l.foldl dedupStep []) k = some w := by
    rw [mapGet_foldl_dedupStep l [] k]
    exact hw
  exact ⟨w, hget, hwl, mem_values_of_mapGet _ _ _ hget⟩

/-- C2 witness: the general part applied to the spec instance list at its
canonical key. -/
theorem dedup_live_entry_wins_witness :
    (∃ w, mapGet ([fooJStatic, fooJLive].foldl dedupStep []) "foojcard" =
        some w ∧ truthy w.isLive = true ∧
        w ∈ deduplicateCards [fooJStatic, fooJLive]) ∧
    deduplicateCards [fooJStatic, fooJLive] = [fooJLive] :=
  dedup_live_entry_wins [fooJStatic, fooJLive] "foojcard"
    ⟨fooJLive, by simp, by decide, by decide⟩

/-- C9: for every input list and key all of whose records are static (isLive
false or absent), the map entry of `deduplicateCards` for that key is the
first input record bearing that key; a later static record never replaces a
stored one. -/
theorem dedup_all_static_first_wins (l : List CreditCard) (k : String)
    (h : ∀ c ∈ l, normKey c = k → truthy c.isLive = false) :
    mapGet (l.foldl dedupStep []) k =
      (l.filter (fun c => decide (normKey c = k))).head? := by
  rw [mapGet_foldl_dedupStep l [] k]
  have hstat : ∀ c ∈ l.filter (fun c => decide (normKey c = k)),
      truthy c.isLive = false := by
    intro c hc
    have hc2 := List.mem_filter.mp hc
    exact h c hc2.1 (by simpa using hc2.2)
  exact foldl_specWinner_all_static _ hstat

/-- C9 witness: two static records with the same canonical key; the stored
entry is the first. -/
theorem dedup_all_static_first_wins_witness :
    mapGet ([staticA, staticB].foldl dedupStep []) "foocard" =
      ([staticA, staticB].filter
        (fun c => decide (normKey c = "foocard"))).head? :=
  dedup_all_static_first_wins [staticA, staticB] "foocard" (by decide)

/-- C5: the output of `deduplicateCards` carries pairwise distinct canonical
keys (at most one record per key), so its length is bounded by the number of
distinct canonical keys of the input. -/
theorem dedup_at_most_one_per_key (l : List CreditCard) :
    ((deduplicateCards l).map normKey).Nodup ∧
    (deduplicateCards l).length ≤ ((l.map normKey).dedup).length := by
  have hnd := output_keys_nodup l
  refine ⟨hnd, ?_⟩
  have hlen : (deduplicateCards l).length =
      ((deduplicateCards l).map normKey).length :=
    (List.length_map _ _).symm
  rw [hlen]
  apply List.Subperm.length_le
  apply List.Nodup.subperm hnd
  intro k hk
  rw [List.mem_dedup]
  have hcoh := coherent_foldl_dedupStep l [] coherent_nil
  have hkeys : (deduplicateCards l).map normKey =
      mapKeys (l.foldl dedupStep []) := values_map_normKey _ hcoh
  rw [hkeys] at hk
  rcases mapKeys_foldl_dedupStep_sub l [] k hk with h | h
  · simp [mapKeys] at h
  · exact h

/-- C6: `deduplicateCards` is idempotent; rerunning it on its own output
returns the output unchanged. -/
theorem dedup_idempotent (l : List CreditCard) :
    deduplicateCards (deduplicateCards l) = deduplicateCards l :=
  dedup_of_nodup_keys _ (output_keys_nodup l)

/-- C7: the canonical key is the lowercased bank-plus-name string with every
character outside lowercase letters, digits and the CJK ideograph range
stripped; two records whose identities differ only by punctuation (Foo-Bar
versus FooBar) receive the same key and collapse to one output record. -/
theorem canonical_key_strips_punctuation :
    (∀ card : CreditCard, normKey card =
      String.mk (((card.bank ++ card.name).data.map Char.toLower).filter
        isKeyChar)) ∧
    normKey punctCard = normKey plainCard ∧
    deduplicateCards [punctCard, plainCard] = [punctCard] ∧
    (deduplicateCards [punctCard, plainCard]).length = 1 := by
  exact ⟨fun card => rfl, by decide, rfl, rfl⟩

/-- C8: `deduplicateCards` is pure and total; every output record is one of
the input records (records pass through unmutated), and an identity string
with no alphanumeric or CJK character normalizes to the empty key rather than
failing, as the concrete malformed record shows. -/
theorem dedup_pure_total :
    (∀ (l : List CreditCard) (c : CreditCard),
      c ∈ deduplicateCards l → c ∈ l) ∧
    (∀ card : CreditCard,
      (∀ ch ∈ (card.bank ++ card.name).data,
        isKeyChar (Char.toLower ch) = false) →
      normKey card = "") ∧
    normKey malformedCard = "" := by
  refine ⟨?_, ?_, by decide⟩
  · intro l c h
    rcases mem_values_foldl_dedupStep l [] c h with h2 | h2
    · simp at h2
    · exact h2
  · intro card h
    have hnil : (((card.bank ++ card.name).data.map Char.toLower).filter
        isKeyChar) = [] := by
      rw [List.filter_eq_nil_iff]
      intro a ha
      rcases List.mem_map.mp ha with ⟨ch, hch, hrw⟩
      rw [← hrw]
      simp [h ch hch]
    unfold normKey
    rw [hnil]

/-- C8 witness: both general parts applied to the malformed record. -/
theorem dedup_pure_total_witness :
    malformedCard ∈ [malformedCard] ∧ normKey malformedCard = "" :=
  ⟨dedup_pure_total.1 [malformedCard] malformedCard (by simp [deduplicateCards, dedupStep, mapGet, mapSet]),
    dedup_pure_total.2.1 malformedCard (by decide)⟩

/-- C3 counterexample: two distinct live records with the same canonical key;
swapping them changes the output set, so the final set of records is not
independent of insertion order. -/
theorem dedup_not_perm_invariant :
    [liveA, liveB].Perm [liveB, liveA] ∧
    deduplicateCards [liveA, liveB] = [liveB] ∧
    deduplicateCards [liveB, liveA] = [liveA] ∧
    liveB ∈ deduplicateCards [liveA, liveB] ∧
    ¬ liveB ∈ deduplicateCards [liveB, liveA] := by
  refine ⟨List.Perm.swap liveB liveA [], rfl, rfl, ?_, ?_⟩
  · have h : deduplicateCards [liveA, liveB] = [liveB] := rfl
    rw [h]
    simp
  · have h : deduplicateCards [liveB, liveA] = [liveA] := rfl
    rw [h]
    simp only [List.mem_singleton]
    decide

theorem mem_dedup_iff_of_inj (l : List CreditCard)
    (hinj : ∀ c ∈ l, ∀ d ∈ l, normKey c = normKey d → c = d)
    (c : CreditCard) :
    c ∈ deduplicateCards l ↔ c ∈ l := by
  constructor
  · intro h
    rcases mem_values_foldl_dedupStep l [] c h with h2 | h2
    · simp at h2
    · exact h2
  · intro hc
    have hmemf : c ∈ l.filter (fun d => decide (normKey d = normKey c)) :=
      List.mem_filter.mpr ⟨hc, by simp⟩
    have hall : ∀ x ∈ l.filter (fun d => decide (normKey d = normKey c)),
        x = c := by
      intro x hx
      have hx2 := List.mem_filter.mp hx
      exact hinj x hx2.1 c hc (by simpa using hx2.2)
    have hget : mapGet (l.foldl dedupStep []) (normKey c) = some c := by
      rw [mapGet_foldl_dedupStep l [] (normKey c)]
      exact foldl_specWinner_const c _ (List.ne_nil_of_mem hmemf) hall
    exact mem_values_of_mapGet _ _ _ hget

/-- C3 amended: when no two distinct input records share a canonical key, the
output of `deduplicateCards`, as a set, is the set of input records, hence is
the same for every permutation of the input; with duplicate keys the final
set depends on order (see the counterexample). -/
theorem dedup_perm_invariant_of_inj (l l' : List CreditCard)
    (hinj : ∀ c ∈ l, ∀ d ∈ l, normKey c = normKey d → c = d)
    (hperm : l.Perm l') (c : CreditCard) :
    c ∈ deduplicateCards l ↔ c ∈ deduplicateCards l' := by
  have hinj' : ∀ a ∈ l', ∀ b ∈ l', normKey a = normKey b → a = b := by
    intro a ha b hb
    exact hinj a (hperm.symm.subset ha) b (hperm.symm.subset hb)
  rw [mem_dedup_iff_of_inj l hinj c, mem_dedup_iff_of_inj l' hinj' c]
  exact hperm.mem_iff

/-- C3 witness: the amended invariance applied to a concrete one-element list
and its trivial permutation. -/
theorem dedup_perm_invariant_of_inj_witness :
    liveA ∈ deduplicateCards [liveA] ↔ liveA ∈ deduplicateCards [liveA] :=
  dedup_perm_invariant_of_inj [liveA] [liveA]
    (by
      intro c hc d hd _
      simp at hc hd
      rw [hc, hd])
    (List.Perm.refl _) liveA

/-- C10: the merge performed on each fetched batch equals the fetched cards
followed by the previous cards with duplicates by id removed keeping the
first occurrence; a stored card whose id misses the batch survives, a stored
card whose id collides with a fetched card is dropped in favour of the first
such fetched card, which is kept. -/
theorem merge_keeps_first_by_id (news prev : List CreditCard)
    (hprev : (prev.map CreditCard.id).Nodup) :
    mergeBatch news prev = keepFirstById (news ++ prev) ∧
    (∀ c ∈ prev, (∀ n ∈ news, ¬ n.id = c.id) →
      c ∈ mergeBatch news prev) ∧
    (∀ c ∈ prev, ¬ c ∈ news → (∃ n ∈ news, n.id = c.id) →
      ¬ c ∈ mergeBatch news prev) ∧
    (∀ n ∈ news, news.find? (fun d => decide (d.id = n.id)) = some n →
      n ∈ mergeBatch news prev) := by
  refine ⟨mergeBatch_eq_keepFirstById news prev, ?_, ?_, ?_⟩
  · intro c hc hnone
    rw [mem_mergeBatch, List.find?_append]
    have h1 : news.find? (fun d => decide (d.id = c.id)) = none := by
      rw [List.find?_eq_none]
      intro x hx
      simp only [decide_eq_true_eq]
      exact hnone x hx
    rw [h1]
    exact find?_id_of_nodup prev c hprev hc
  · rintro c hc hcnotnews ⟨n, hn, hid⟩
    rw [mem_mergeBatch, List.find?_append]
    have hsome : (news.find? (fun d => decide (d.id = c.id))).isSome :=
      List.find?_isSome.mpr ⟨n, hn, by simp [hid]⟩
    rcases Option.isSome_iff_exists.mp hsome with ⟨m, hm⟩
    rw [hm]
    intro he
    have hme : m = c := Option.some.inj he
    exact hcnotnews (hme ▸ List.mem_of_find?_eq_some hm)
  · intro n hn hfirst
    rw [mem_mergeBatch, List.find?_append, hfirst]
    rfl

/-- C10 witness: the preservation part applied to a concrete batch and
stored list; the stored card whose id misses the batch survives the merge. -/
theorem merge_keeps_first_by_id_witness :
    storedP2 ∈ mergeBatch [fetchedN1] [storedP1, storedP2] :=
  (merge_keeps_first_by_id [fetchedN1] [storedP1, storedP2]
      (by decide)).2.1 storedP2 (by simp) (by decide)

set_option maxRecDepth 100000

/-- C4: evaluation of the discovery loop at a failing input. Starting from an
empty mount-render cards state with a fetch returning one hundred distinct
cards per query, the state reached after the first query already holds one
hundred cards, at the threshold; yet with two queries the loop still issues
the second query from that state, because the guard `cards.length >= 100`
reads the closure variable of the mount render (always the initial list)
rather than the merged state. The queries are issued one at a time in list
order and each non-empty batch is merged, but the loop does not stop at the
threshold. -/
theorem discovery_threshold_reads_stale_state :
    100 ≤ (runDiscovery [] (fun _ => bigBatch) ["q1"]).cards.length ∧
    (runDiscovery [] (fun _ => bigBatch) ["q1", "q2"]).issued =
      ["q1", "q2"] := by
  constructor
  · decide
  · rfl
